import Mathlib

set_option maxHeartbeats 1000000

/-!
Shallow embedding of the JSONQL engine (`src/parser.ts` of janwilmake/jsonql).

The TypeScript class `JSONQL` holds three pieces of mutable state: a
resolution cache (`Map<string, JSONValue>`), a visited-reference set
(`Set<string>`), and (implicitly, for observation) the sequence of document
loads performed.  We model this state explicitly (`EngineState`) and thread
it through the functions.  The file system is modelled as a pure map from
normalized paths to parsed JSON documents (`Store`); an absent entry stands
for either "file not found" or "invalid JSON", which `loadJSON` in the
source treats identically (both throw, and every caller catches both the
same way).

`resolveAllRefs` in the source recurses on values freshly loaded from disk,
bounded only by the depth counter; we encode the bound structurally with a
fuel argument `fuel = maxDepth + 1 - depth`, so that `fuel = 0` holds
exactly when `depth > maxDepth`, the condition the source tests on entry.
-/

/-- JSON values: `null | boolean | number | string | array | object`.
Objects are ordered association lists, mirroring JS insertion order.
`hostFn` is not JSON and never occurs in a parsed document: it stands for
a host function inherited from `Object.prototype` or `Array.prototype`
(`toString`, `push`, ...), which the untyped source can reach through a
property read during fragment navigation and then cache and return like
any other value; its JS `typeof` is `"function"`, so everywhere else it
behaves as a non-object scalar. -/
inductive JSONValue where
  | null
  | bool (b : Bool)
  | num (n : Int)
  | str (s : String)
  | arr (items : List JSONValue)
  | obj (fields : List (String × JSONValue))
  | hostFn (name : String)

/-- First-match association-list lookup, the JS own-property access
`record[key]` (`undefined` becomes `none`). -/
def alookup {α : Type} : List (String × α) → String → Option α
  | [], _ => none
  | (k, v) :: rest, key => if k = key then some v else alookup rest key

/-- The property names every plain `{}` object inherits from
`Object.prototype`, all reported as present by the JS `in` operator
(ECMA-262 including Annex B, as implemented by Node). -/
def objectProtoKeys : List String :=
  ["constructor", "hasOwnProperty", "isPrototypeOf", "propertyIsEnumerable",
   "toLocaleString", "toString", "valueOf", "__proto__", "__defineGetter__",
   "__defineSetter__", "__lookupGetter__", "__lookupSetter__"]

/-- The function-valued members of `Object.prototype`: reading one of
these names on a plain object that lacks it as an own key yields the
inherited host function.  (`__proto__` is excluded: it is an accessor
yielding the prototype object itself, and is kept outside the modelled
fragment alphabet.) -/
def protoFnKeys : List String :=
  ["constructor", "hasOwnProperty", "isPrototypeOf", "propertyIsEnumerable",
   "toLocaleString", "toString", "valueOf", "__defineGetter__",
   "__defineSetter__", "__lookupGetter__", "__lookupSetter__"]

/-- The function-valued members of `Array.prototype` (ES2023 / Node 20
string keys): reading one of these names on an array yields the inherited
host function.  `length` is an own data property of every array and is
handled separately. -/
def arrayProtoKeys : List String :=
  ["at", "concat", "constructor", "copyWithin", "entries", "every", "fill",
   "filter", "find", "findIndex", "findLast", "findLastIndex", "flat",
   "flatMap", "forEach", "includes", "indexOf", "join", "keys",
   "lastIndexOf", "map", "pop", "push", "reduce", "reduceRight", "reverse",
   "shift", "slice", "some", "sort", "splice", "toLocaleString",
   "toReversed", "toSorted", "toSpliced", "toString", "unshift", "values",
   "with"]

/-- The selection trees produced by `processNestedSelections`
(`src/parser.ts`): plain string-keyed objects whose leaves are empty
objects (`result[fieldName] = {}`). -/
inductive SelTree where
  | node (fields : List (String × SelTree))

def SelTree.fields : SelTree → List (String × SelTree)
  | .node fs => fs

/-- JS `key in selections` (`src/parser.ts` line 215).  The `in` operator
sees the selection object's own keys and also every inherited
`Object.prototype` member, so a data key named `toString`,
`constructor`, ... is treated as selected even when the query never
mentions it. -/
def selHas (sel : SelTree) (k : String) : Bool :=
  (alookup sel.fields k).isSome || objectProtoKeys.contains k

/-- JS `Object.keys(selections).length === 0`. -/
def selIsEmpty (sel : SelTree) : Bool :=
  sel.fields.isEmpty

/-- JS `selections[key] || {}`.  Own selection values are objects, hence
truthy, so `||` only replaces `undefined`; for a key selected only
through the prototype chain, `selections[key]` is the inherited host
function, which has no own enumerable keys and therefore drives
`resolveAllRefs` exactly like the empty tree (`Object.keys(fn).length
=== 0` holds, and its own property reads again yield own-key-free
values), so the model renders it as `.node []` as well. -/
def selChild (sel : SelTree) (k : String) : SelTree :=
  (alookup sel.fields k).getD (.node [])

/-- The document backend: a parsed JSON document per normalized logical
path; `none` models a `loadJSON` failure (missing file or parse error). -/
def Store : Type := String → Option JSONValue

/-- Engine configuration fixed by the constructor. -/
structure Config where
  maxDepth : Nat
  enableCache : Bool

/-- The mutable fields of the `JSONQL` class, plus a log of the document
loads performed (`calls`), used to observe Document Store traffic. -/
structure EngineState where
  cache : List (String × JSONValue)
  visited : List String
  calls : List String

def initState : EngineState := ⟨[], [], []⟩

/-- The `clearCache()` method from `src/parser.ts`: empties the resolution cache. -/
def clearCache (s : EngineState) : EngineState := { s with cache := [] }

/-- The errors `src/parser.ts` can throw out of resolution, plus the
`CircularReference` failure of the spec's §7 taxonomy (which the spec names
as a possible policy; `maxDepthRef` is the `resolveRef` depth throw,
`maxDepthExceeded` the `resolveAllRefs` depth throw, `loadFailure` the
uncaught top-level entry-document load, `typeError` the JS `key in root`
on a primitive root). -/
inductive JSONQLError where
  | maxDepthRef (maxDepth : Nat) (ref : String)
  | maxDepthExceeded (maxDepth : Nat)
  | circularReference (ref : String)
  | loadFailure (path : String)
  | typeError

/- ---------- string helpers (JS `split`, `startsWith`, `slice`) ---------- -/

/-- JS `String.prototype.split(c)` on a character list; `"".split(c)` is
`[""]`, so the empty list yields one empty segment. -/
def splitOnChar (c : Char) : List Char → List (List Char)
  | [] => [[]]
  | x :: xs =>
    let r := splitOnChar c xs
    if x = c then [] :: r
    else
      match r with
      | [] => [[x]]
      | seg :: rest => (x :: seg) :: rest

/-- JS `s.startsWith("/")`. -/
def startsWithSlash (s : String) : Bool :=
  match s.data with
  | [] => false
  | c :: _ => c = '/'

/-- Path normalization of `loadJSON`:
`filePath.startsWith("/") ? filePath.slice(1) : filePath`
(resolution against the fixed `rootDir` is the store's key space). -/
def normPath (p : String) : String :=
  if startsWithSlash p then String.mk p.data.tail else p

/-- The destructuring `let [filePath, fragment] = ref.split("#")` followed by the
`if (!fragment)` test: a missing or empty fragment is `none`. -/
def splitRef (ref : String) : String × Option String :=
  match (splitOnChar '#' ref.data).map String.mk with
  | [] => (ref, none)
  | [p] => (p, none)
  | p :: f :: _ => (p, if f.data = [] then none else some f)

/-- The fragment path computation `fragment.startsWith("/") ?
fragment.slice(1).split("/") : fragment.split("/")`. -/
def fragPath (frag : String) : List String :=
  if startsWithSlash frag then (splitOnChar '/' frag.data.tail).map String.mk
  else (splitOnChar '/' frag.data).map String.mk

/-- Decimal digit-run parser: the value of a digit string, `none` on any
non-digit. -/
def digitsVal (acc : Nat) : List Char → Option Nat
  | [] => some acc
  | c :: cs =>
    if c.isDigit then digitsVal (acc * 10 + (c.toNat - 48)) cs else none

/-- A canonical decimal array index (digits only, no leading zero except
`"0"` itself), the string keys under which JS array element access
`arr[segment]` finds an element. -/
def canonIndex (seg : String) : Option Nat :=
  match seg.data with
  | [] => none
  | ['0'] => some 0
  | c :: cs => if c = '0' then none else digitsVal 0 (c :: cs)

/- ---------- Document Store ---------- -/

/-- Models `loadJSON` (`src/parser.ts` lines 42-64), with the load logged:
normalize the path, read the store.  `none` stands for the thrown
`File not found` / `Failed to parse` errors. -/
def loadJSON (store : Store) (p : String) (s : EngineState) :
    Option JSONValue × EngineState :=
  let key := normPath p
  (store key, { s with calls := s.calls ++ [key] })

/- ---------- fragment navigation ---------- -/

/-- The two throw sites of the fragment-walking loop. -/
inductive FragError where
  | notNavigable
  | missing

/-- The JS property read `result[segment]` as the fragment loop performs
it.  Objects yield own properties first (a parsed `"__proto__"` key is an
own data property and is found here) and otherwise the inherited
function-valued `Object.prototype` members; arrays yield elements at
canonical decimal indices, their own `length`, and otherwise the
inherited function-valued `Array.prototype` / `Object.prototype`
members.  Everything else is `undefined`.  The `__proto__` accessor
read, which yields the prototype object itself, is not modelled; the
fragment-fallback theorem below keeps such segments out of its range by
hypothesis. -/
def navGet : JSONValue → String → Option JSONValue
  | .obj fields, seg =>
    match alookup fields seg with
    | some v => some v
    | none => if protoFnKeys.contains seg then some (.hostFn seg) else none
  | .arr items, seg =>
    match canonIndex seg with
    | some i => items.get? i
    | none =>
      if seg = "length" then some (.num items.length)
      else if arrayProtoKeys.contains seg || protoFnKeys.contains seg then
        some (.hostFn seg)
      else none
  | _, _ => none

/-- The `for (const segment of fragmentPath)` loop of `resolveRef`
(lines 136-148): require an object or array (`typeof result === "object"`
excluding `null`; an inherited host function picked up by an earlier
step fails this test too), step `result = result[segment]` via `navGet`,
and fail when the step yields `undefined`. -/
def navigateFragment : JSONValue → List String → Except FragError JSONValue
  | v, [] => .ok v
  | v, seg :: rest =>
    match v with
    | .obj _ | .arr _ =>
      match navGet v seg with
      | some v' => navigateFragment v' rest
      | none => .error .missing
    | _ => .error .notNavigable

/- ---------- reference detection ---------- -/

/-- Models `isRef` (`src/parser.ts` lines 170-177): an object whose `$ref` key
holds a string; returns that string. -/
def refString (fields : List (String × JSONValue)) : Option String :=
  match alookup fields "$ref" with
  | some (.str r) => some r
  | _ => none

/- ---------- cache access ---------- -/

/-- The read `this.enableCache && this.cache.has(ref)` followed by `get`. -/
def cacheGet (cfg : Config) (s : EngineState) (ref : String) : Option JSONValue :=
  if cfg.enableCache then alookup s.cache ref else none

/-- The write `if (this.enableCache) this.cache.set(ref, v)`; prepending shadows any
older binding, matching `Map.set` for lookup purposes. -/
def cacheSet (cfg : Config) (s : EngineState) (ref : String) (v : JSONValue) :
    EngineState :=
  if cfg.enableCache then { s with cache := (ref, v) :: s.cache } else s

/- ---------- the Reference Resolver ---------- -/

/-- Models `resolveRef` (`src/parser.ts` lines 69-165).  All caught errors
(load failure, fragment failure) degrade to an empty object, as in the
source; the only throw is the depth guard.  The visited set is updated
exactly as in the source: added after the cycle check, removed before each
return, and left untouched on the cycle branch. -/
def resolveRef (cfg : Config) (store : Store) (ref : String) (depth : Nat)
    (s : EngineState) : Except JSONQLError (JSONValue × EngineState) :=
  if cfg.maxDepth < depth then
    .error (.maxDepthRef cfg.maxDepth ref)
  else if ref ∈ s.visited then
    .ok (.obj [], s)
  else
    let s₁ : EngineState := { s with visited := ref :: s.visited }
    match cacheGet cfg s₁ ref with
    | some v => .ok (v, { s₁ with visited := s₁.visited.erase ref })
    | none =>
      let pf := splitRef ref
      match pf.2 with
      | none =>
        let load := loadJSON store pf.1 s₁
        match load.1 with
        | some doc =>
          let s₂ := cacheSet cfg load.2 ref doc
          .ok (doc, { s₂ with visited := s₂.visited.erase ref })
        | none =>
          .ok (.obj [], { load.2 with visited := load.2.visited.erase ref })
      | some frag =>
        let load := loadJSON store pf.1 s₁
        match load.1 with
        | none =>
          .ok (.obj [], { load.2 with visited := load.2.visited.erase ref })
        | some doc =>
          match navigateFragment doc (fragPath frag) with
          | .ok v =>
            let s₂ := cacheSet cfg load.2 ref v
            .ok (v, { s₂ with visited := s₂.visited.erase ref })
          | .error _ =>
            .ok (.obj [], { load.2 with visited := load.2.visited.erase ref })

/-- The value `resolveRef` computes for a reference from the store alone
(independent of depth, visited set and cache): load the path, walk the
fragment, degrade both failure modes to `{}`. -/
def resolveRefPure (store : Store) (ref : String) : JSONValue :=
  match (splitRef ref).2 with
  | none => ((store (normPath (splitRef ref).1)).getD (.obj []))
  | some frag =>
    match store (normPath (splitRef ref).1) with
    | none => .obj []
    | some doc =>
      match navigateFragment doc (fragPath frag) with
      | .ok v => v
      | .error _ => .obj []

/- ---------- the Selective Resolution Engine, pass 1 ---------- -/

/-- Sequential element-wise expansion of an array
(`Promise.all(data.map(...))`, state threaded left to right). -/
def resolveSeq (f : JSONValue → EngineState → Except JSONQLError (JSONValue × EngineState)) :
    List JSONValue → EngineState → Except JSONQLError (List JSONValue × EngineState)
  | [], s => .ok ([], s)
  | x :: xs, s =>
    match f x s with
    | .error e => .error e
    | .ok (v, s') =>
      match resolveSeq f xs s' with
      | .error e => .error e
      | .ok (vs, s'') => .ok (v :: vs, s'')

/-- The `for (const key of Object.keys(data))` loop of `resolveAllRefs`
(lines 214-226): keep a key when it is selected or the selection is the
empty wildcard, expanding its value under `selections[key] || {}`;
otherwise drop it without touching it. -/
def resolveFieldsSeq
    (f : SelTree → JSONValue → EngineState → Except JSONQLError (JSONValue × EngineState))
    (sel : SelTree) :
    List (String × JSONValue) → EngineState →
      Except JSONQLError (List (String × JSONValue) × EngineState)
  | [], s => .ok ([], s)
  | (k, v) :: rest, s =>
    if selHas sel k || selIsEmpty sel then
      match f (selChild sel k) v s with
      | .error e => .error e
      | .ok (v', s') =>
        match resolveFieldsSeq f sel rest s' with
        | .error e => .error e
        | .ok (fs, s'') => .ok ((k, v') :: fs, s'')
    else resolveFieldsSeq f sel rest s

/-- Models `resolveAllRefs` (`src/parser.ts` lines 182-229) with the depth guard
encoded as fuel: `fuel = maxDepth + 1 - depth`, so `fuel = 0` is exactly
the source's entry test `depth > this.maxDepth`, and every recursive call
decrements the fuel as it increments `depth`.  Scalars pass through,
arrays map element-wise at `depth + 1`, a `$ref` object is resolved by
`resolveRef` at the current depth and the result re-expanded at
`depth + 1`, and plain objects keep selected keys only. -/
def goResolve (cfg : Config) (store : Store) :
    Nat → Nat → JSONValue → SelTree → EngineState →
      Except JSONQLError (JSONValue × EngineState)
  | 0, _, _, _, _ => .error (.maxDepthExceeded cfg.maxDepth)
  | fuel + 1, depth, data, sel, s =>
    match data with
    | .null => .ok (.null, s)
    | .bool b => .ok (.bool b, s)
    | .num n => .ok (.num n, s)
    | .str t => .ok (.str t, s)
    | .hostFn f => .ok (.hostFn f, s)
    | .arr items =>
      match resolveSeq (fun x s' => goResolve cfg store fuel (depth + 1) x sel s') items s with
      | .error e => .error e
      | .ok (vs, s') => .ok (.arr vs, s')
    | .obj fields =>
      match refString fields with
      | some r =>
        match resolveRef cfg store r depth s with
        | .error e => .error e
        | .ok (v, s') => goResolve cfg store fuel (depth + 1) v sel s'
      | none =>
        match resolveFieldsSeq
            (fun sub v s' => goResolve cfg store fuel (depth + 1) v sub s') sel fields s with
        | .error e => .error e
        | .ok (fs, s') => .ok (.obj fs, s')

/-- The entry point `resolveAllRefs(data, selections, depth)`: the fuel wrapper. -/
def resolveAllRefs (cfg : Config) (store : Store) (data : JSONValue)
    (sel : SelTree) (depth : Nat) (s : EngineState) :
    Except JSONQLError (JSONValue × EngineState) :=
  goResolve cfg store (cfg.maxDepth + 1 - depth) depth data sel s

/-- The fuel encoding agrees with the source's entry test: a call at
`depth > maxDepth` fails with the `resolveAllRefs` depth error at once. -/
theorem resolveAllRefs_depth_guard (cfg : Config) (store : Store)
    (data : JSONValue) (sel : SelTree) (depth : Nat) (s : EngineState)
    (h : cfg.maxDepth < depth) :
    resolveAllRefs cfg store data sel depth s =
      .error (.maxDepthExceeded cfg.maxDepth) := by
  unfold resolveAllRefs
  have hz : cfg.maxDepth + 1 - depth = 0 := by omega
  rw [hz, goResolve]

/- ---------- pass 2: projection (`filterResponse`) ---------- -/

/-- JS `typeof v === "object" && v !== null`: objects and arrays. -/
def isCompound : JSONValue → Bool
  | .obj _ => true
  | .arr _ => true
  | _ => false

theorem sizeOf_alookup {fields : List (String × JSONValue)} {k : String}
    {v : JSONValue} (h : alookup fields k = some v) : sizeOf v < sizeOf fields := by
  induction fields with
  | nil => simp [alookup] at h
  | cons p rest ih =>
    obtain ⟨k', v'⟩ := p
    by_cases hk : k' = k
    · simp [alookup, hk] at h
      subst h
      simp
      omega
    · simp [alookup, hk] at h
      have := ih h
      simp
      omega

mutual
/-- Models `filterResponse` (`src/parser.ts` lines 327-367): primitives pass
through, arrays map element-wise with the same selections, and objects are
rebuilt from the keys of `selections` (in selection order) that exist in
the data.  Selection values are always plain objects (built by
`processNestedSelections`), so the JS guard on `subSelections` is
identically true and the branch reduces to the check on `data[key]`:
a compound value recurses, a scalar is included verbatim. -/
def filterResponse : JSONValue → SelTree → JSONValue
  | .arr items, sel => .arr (filterList items sel)
  | .obj fields, sel => .obj (filterFields fields sel.fields)
  | v, _ => v
termination_by v _ => ((sizeOf v : Nat), (0 : Nat))
decreasing_by
  · apply Prod.Lex.left; simp
  · apply Prod.Lex.left; simp

/-- The array branch `data.map((item) => this.filterResponse(item, selections))`. -/
def filterList : List JSONValue → SelTree → List JSONValue
  | [], _ => []
  | x :: xs, sel => filterResponse x sel :: filterList xs sel
termination_by l _ => ((sizeOf l : Nat), (0 : Nat))
decreasing_by
  · apply Prod.Lex.left; simp; omega
  · apply Prod.Lex.left; simp

/-- The loop `for (const key in selections) if (key in data) ...`
(`for...in` iterates own enumerable selection keys only, since inherited
members are non-enumerable; `key in data` is modelled as own lookup, so
a selection key that `data` only inherits is not modelled). -/
def filterFields : List (String × JSONValue) → List (String × SelTree) →
    List (String × JSONValue)
  | _, [] => []
  | dataFields, (k, sub) :: rest =>
    match h : alookup dataFields k with
    | none => filterFields dataFields rest
    | some v =>
      (k, if isCompound v then filterResponse v sub else v) ::
        filterFields dataFields rest
termination_by df sf => ((sizeOf df : Nat), (sizeOf sf : Nat))
decreasing_by
  · apply Prod.Lex.right; simp
  · apply Prod.Lex.left; exact sizeOf_alookup h
  · apply Prod.Lex.right; simp
end

/- ---------- top-level orchestration (`query`) ---------- -/

/-- JS `key in rootData` plus `rootData[key]`, for an object or array
root, modelled for own keys and canonical index keys; inherited
prototype names (and `length` on an array root) are reachable in the
program but not modelled here. -/
def rootGet : JSONValue → String → Option JSONValue
  | .obj fields, k => alookup fields k
  | .arr items, k =>
    match canonIndex k with
    | some i => items.get? i
    | none => none
  | _, _ => none

/-- The `for (const key in querySelections)` loop of `query`
(lines 386-400): keys absent from the root are skipped silently; present
keys are expanded from depth 0 and then projected. -/
def queryFields (cfg : Config) (store : Store) (root : JSONValue) :
    List (String × SelTree) → EngineState →
      Except JSONQLError (List (String × JSONValue) × EngineState)
  | [], s => .ok ([], s)
  | (k, sub) :: rest, s =>
    match rootGet root k with
    | none => queryFields cfg store root rest s
    | some v =>
      match resolveAllRefs cfg store v sub 0 s with
      | .error e => .error e
      | .ok (v', s') =>
        match queryFields cfg store root rest s' with
        | .error e => .error e
        | .ok (fs, s'') => .ok ((k, filterResponse v' sub) :: fs, s'')

/-- Models `query(entryFile, queryStr)` (lines 372-407) with the Selection Tree
already compiled (query-text parsing is delegated to the external GraphQL
parser and is out of scope): clear the visited set, load the entry
document (this load failure is the one that propagates to the caller),
then run expansion and projection per selected top-level key.  A primitive
root makes the JS `key in rootData` test throw a `TypeError` as soon as
one selection key is examined. -/
def queryRun (cfg : Config) (store : Store) (entryFile : String)
    (sel : SelTree) (s : EngineState) :
    Except JSONQLError (JSONValue × EngineState) :=
  let s₀ : EngineState := { s with visited := [] }
  let load := loadJSON store entryFile s₀
  match load.1 with
  | none => .error (.loadFailure (normPath entryFile))
  | some root =>
    if sel.fields.isEmpty then .ok (.obj [], load.2)
    else if isCompound root then
      match queryFields cfg store root sel.fields load.2 with
      | .error e => .error e
      | .ok (fs, s') => .ok (.obj fs, s')
    else .error .typeError

/- ---------- the constructor ---------- -/

/-- The option bag of `new JSONQL({...})`; absent fields are `none`. -/
structure JSONQLOptions where
  maxDepth : Option Nat := none
  cache : Option Bool := none

/-- The constructor (`src/parser.ts` lines 31-37):
`this.maxDepth = options.maxDepth || 10` (so the falsy `0` also yields the
default 10) and `this.enableCache = options.cache !== false`. -/
def mkConfig (opts : JSONQLOptions) : Config where
  maxDepth :=
    match opts.maxDepth with
    | none => 10
    | some n => if n = 0 then 10 else n
  enableCache :=
    match opts.cache with
    | some false => false
    | _ => true

/- ---------- concrete fixtures ---------- -/

/-- An object that is just a reference: `{"$ref": r}`. -/
def refObj (r : String) : JSONValue := .obj [("$ref", .str r)]

/-- A document set with a single self-referential document: the document
at path `p` is `{"$ref": "p"}`. -/
def selfStore : Store := fun p => if p = "p" then some (refObj "p") else none

/-- A document set with no documents at all: every load fails. -/
def emptyStore : Store := fun _ => none

/- ---------- association-list lemmas ---------- -/

theorem alookup_filter_self {α : Type} (l : List (String × α)) (k : String) :
    alookup (l.filter (fun p => p.1 != k)) k = none := by
  induction l with
  | nil => rfl
  | cons p rest ih =>
    obtain ⟨k', v⟩ := p
    by_cases hk : k' = k
    · subst hk
      simpa [List.filter_cons] using ih
    · simp [List.filter_cons, hk, alookup, ih]

theorem alookup_filter_ne {α : Type} (l : List (String × α)) (k q : String)
    (h : q ≠ k) : alookup (l.filter (fun p => p.1 != k)) q = alookup l q := by
  induction l with
  | nil => rfl
  | cons p rest ih =>
    obtain ⟨k', v⟩ := p
    by_cases hk : k' = k
    · subst hk
      have hq : ¬ k' = q := fun hh => h hh.symm
      simp [List.filter_cons, alookup, hq, ih]
    · simp only [List.filter_cons]
      simp only [bne_iff_ne, ne_eq, hk, not_false_eq_true, if_true]
      simp [alookup, ih]

/- ---------- cache coherence ---------- -/

/-- A cache is coherent with the document set when every cached value is
exactly what a fresh resolution of its reference would compute.  The
engine only ever caches freshly resolved values, so this invariant holds
for every cache the engine itself populates. -/
def cacheCoherent (store : Store) (cache : List (String × JSONValue)) : Prop :=
  ∀ r v, alookup cache r = some v → v = resolveRefPure store r

theorem cacheCoherent_nil (store : Store) : cacheCoherent store [] := by
  intro r v h
  simp [alookup] at h

theorem cacheCoherent_cons {store : Store} {cache : List (String × JSONValue)}
    {r : String} {v : JSONValue} (hc : cacheCoherent store cache)
    (hv : v = resolveRefPure store r) : cacheCoherent store ((r, v) :: cache) := by
  intro q w h
  unfold alookup at h
  by_cases hq : r = q
  · rw [if_pos hq] at h
    cases h
    exact hq ▸ hv
  · rw [if_neg hq] at h
    exact hc q w h

theorem cacheGet_some {cfg : Config} {s : EngineState} {ref : String}
    {v : JSONValue} (h : cacheGet cfg s ref = some v) :
    alookup s.cache ref = some v := by
  unfold cacheGet at h
  by_cases hc : cfg.enableCache
  · rwa [if_pos hc] at h
  · rw [if_neg hc] at h
    cases h

/- ---------- resolveRef branch lemmas ---------- -/

theorem resolveRef_depth {cfg : Config} {store : Store} {ref : String}
    {depth : Nat} {s : EngineState} (h : cfg.maxDepth < depth) :
    resolveRef cfg store ref depth s = .error (.maxDepthRef cfg.maxDepth ref) := by
  unfold resolveRef
  rw [if_pos h]

theorem resolveRef_cycle {cfg : Config} {store : Store} {ref : String}
    {depth : Nat} {s : EngineState} (h1 : ¬ cfg.maxDepth < depth)
    (h2 : ref ∈ s.visited) :
    resolveRef cfg store ref depth s = .ok (.obj [], s) := by
  unfold resolveRef
  rw [if_neg h1, if_pos h2]

theorem resolveRef_cache_hit {cfg : Config} {store : Store} {ref : String}
    {depth : Nat} {s : EngineState} {v : JSONValue}
    (h1 : ¬ cfg.maxDepth < depth) (h2 : ref ∉ s.visited)
    (hcg : cacheGet cfg s ref = some v) :
    resolveRef cfg store ref depth s = .ok (v, s) := by
  have hcg' : cacheGet cfg { s with visited := ref :: s.visited } ref = some v := hcg
  simp only [resolveRef, if_neg h1, if_neg h2, hcg', List.erase_cons_head]

theorem resolveRef_load_ok {cfg : Config} {store : Store} {ref : String}
    {depth : Nat} {s : EngineState} {p : String} {doc : JSONValue}
    (h1 : ¬ cfg.maxDepth < depth) (h2 : ref ∉ s.visited)
    (hcg : cacheGet cfg s ref = none) (hs : splitRef ref = (p, none))
    (hl : store (normPath p) = some doc) :
    resolveRef cfg store ref depth s =
      .ok (doc, cacheSet cfg { s with calls := s.calls ++ [normPath p] } ref doc) := by
  have hcg' : cacheGet cfg { s with visited := ref :: s.visited } ref = none := hcg
  have hs1 : (splitRef ref).1 = p := by rw [hs]
  have hs2 : (splitRef ref).2 = none := by rw [hs]
  simp only [resolveRef, if_neg h1, if_neg h2, hcg', hs1, hs2, loadJSON, hl]
  unfold cacheSet
  by_cases hec : cfg.enableCache
  · simp [hec, List.erase_cons_head]
  · simp [hec, List.erase_cons_head]

theorem resolveRef_load_fail {cfg : Config} {store : Store} {ref : String}
    {depth : Nat} {s : EngineState} {p : String} {frag : Option String}
    (h1 : ¬ cfg.maxDepth < depth) (h2 : ref ∉ s.visited)
    (hcg : cacheGet cfg s ref = none) (hs : splitRef ref = (p, frag))
    (hl : store (normPath p) = none) :
    resolveRef cfg store ref depth s =
      .ok (.obj [], { s with calls := s.calls ++ [normPath p] }) := by
  have hcg' : cacheGet cfg { s with visited := ref :: s.visited } ref = none := hcg
  have hs1 : (splitRef ref).1 = p := by rw [hs]
  have hs2 : (splitRef ref).2 = frag := by rw [hs]
  cases frag with
  | none => simp only [resolveRef, if_neg h1, if_neg h2, hcg', hs1, hs2, loadJSON,
      hl, List.erase_cons_head]
  | some f => simp only [resolveRef, if_neg h1, if_neg h2, hcg', hs1, hs2, loadJSON,
      hl, List.erase_cons_head]

theorem resolveRef_frag_ok {cfg : Config} {store : Store} {ref : String}
    {depth : Nat} {s : EngineState} {p frag : String} {doc v : JSONValue}
    (h1 : ¬ cfg.maxDepth < depth) (h2 : ref ∉ s.visited)
    (hcg : cacheGet cfg s ref = none) (hs : splitRef ref = (p, some frag))
    (hl : store (normPath p) = some doc)
    (hn : navigateFragment doc (fragPath frag) = .ok v) :
    resolveRef cfg store ref depth s =
      .ok (v, cacheSet cfg { s with calls := s.calls ++ [normPath p] } ref v) := by
  have hcg' : cacheGet cfg { s with visited := ref :: s.visited } ref = none := hcg
  have hs1 : (splitRef ref).1 = p := by rw [hs]
  have hs2 : (splitRef ref).2 = some frag := by rw [hs]
  simp only [resolveRef, if_neg h1, if_neg h2, hcg', hs1, hs2, loadJSON, hl, hn]
  unfold cacheSet
  by_cases hec : cfg.enableCache
  · simp [hec, List.erase_cons_head]
  · simp [hec, List.erase_cons_head]

theorem resolveRef_frag_fail {cfg : Config} {store : Store} {ref : String}
    {depth : Nat} {s : EngineState} {p frag : String} {doc : JSONValue}
    {fe : FragError}
    (h1 : ¬ cfg.maxDepth < depth) (h2 : ref ∉ s.visited)
    (hcg : cacheGet cfg s ref = none) (hs : splitRef ref = (p, some frag))
    (hl : store (normPath p) = some doc)
    (hn : navigateFragment doc (fragPath frag) = .error fe) :
    resolveRef cfg store ref depth s =
      .ok (.obj [], { s with calls := s.calls ++ [normPath p] }) := by
  have hcg' : cacheGet cfg { s with visited := ref :: s.visited } ref = none := hcg
  have hs1 : (splitRef ref).1 = p := by rw [hs]
  have hs2 : (splitRef ref).2 = some frag := by rw [hs]
  simp only [resolveRef, if_neg h1, if_neg h2, hcg', hs1, hs2, loadJSON, hl, hn,
    List.erase_cons_head]

/- ---------- resolveRefPure case lemmas ---------- -/

theorem resolveRefPure_noFrag {store : Store} {ref p : String}
    (hs : splitRef ref = (p, none)) :
    resolveRefPure store ref = (store (normPath p)).getD (.obj []) := by
  have hs1 : (splitRef ref).1 = p := by rw [hs]
  have hs2 : (splitRef ref).2 = none := by rw [hs]
  simp only [resolveRefPure, hs1, hs2]

theorem resolveRefPure_frag_loadFail {store : Store} {ref p frag : String}
    (hs : splitRef ref = (p, some frag)) (hl : store (normPath p) = none) :
    resolveRefPure store ref = .obj [] := by
  have hs1 : (splitRef ref).1 = p := by rw [hs]
  have hs2 : (splitRef ref).2 = some frag := by rw [hs]
  simp only [resolveRefPure, hs1, hs2, hl]

theorem resolveRefPure_frag_ok {store : Store} {ref p frag : String}
    {doc v : JSONValue} (hs : splitRef ref = (p, some frag))
    (hl : store (normPath p) = some doc)
    (hn : navigateFragment doc (fragPath frag) = .ok v) :
    resolveRefPure store ref = v := by
  have hs1 : (splitRef ref).1 = p := by rw [hs]
  have hs2 : (splitRef ref).2 = some frag := by rw [hs]
  simp only [resolveRefPure, hs1, hs2, hl, hn]

theorem resolveRefPure_frag_fail {store : Store} {ref p frag : String}
    {doc : JSONValue} {fe : FragError} (hs : splitRef ref = (p, some frag))
    (hl : store (normPath p) = some doc)
    (hn : navigateFragment doc (fragPath frag) = .error fe) :
    resolveRefPure store ref = .obj [] := by
  have hs1 : (splitRef ref).1 = p := by rw [hs]
  have hs2 : (splitRef ref).2 = some frag := by rw [hs]
  simp only [resolveRefPure, hs1, hs2, hl, hn]

/- ---------- cacheSet state lemmas ---------- -/

theorem cacheSet_visited (cfg : Config) (s : EngineState) (ref : String)
    (v : JSONValue) : (cacheSet cfg s ref v).visited = s.visited := by
  unfold cacheSet
  split <;> rfl

theorem cacheSet_coherent {store : Store} {s : EngineState} {ref : String}
    {v : JSONValue} (cfg : Config) (hc : cacheCoherent store s.cache)
    (hv : v = resolveRefPure store ref) :
    cacheCoherent store (cacheSet cfg s ref v).cache := by
  unfold cacheSet
  split
  · exact cacheCoherent_cons hc hv
  · exact hc

/- ---------- resolveRef: value and state characterization ---------- -/

/-- Below the depth bound, outside the visited set, and with a coherent
cache, `resolveRef` returns exactly the store-determined value
`resolveRefPure`, restores the visited set, and keeps the cache
coherent — whether or not the cache is enabled or populated. -/
theorem resolveRef_pure_ok {cfg : Config} {store : Store} {ref : String}
    {depth : Nat} {s : EngineState}
    (h1 : ¬ cfg.maxDepth < depth) (h2 : ref ∉ s.visited)
    (hc : cacheCoherent store s.cache) :
    ∃ s', resolveRef cfg store ref depth s = .ok (resolveRefPure store ref, s') ∧
      s'.visited = s.visited ∧ cacheCoherent store s'.cache := by
  cases hcg : cacheGet cfg s ref with
  | some v =>
    have hv : v = resolveRefPure store ref := hc ref v (cacheGet_some hcg)
    exact ⟨s, by rw [resolveRef_cache_hit h1 h2 hcg, hv], rfl, hc⟩
  | none =>
    rcases hsp : splitRef ref with ⟨p, frag⟩
    cases frag with
    | none =>
      cases hl : store (normPath p) with
      | some doc =>
        have hpv : resolveRefPure store ref = doc := by
          rw [resolveRefPure_noFrag hsp, hl]
          rfl
        refine ⟨_, by rw [resolveRef_load_ok h1 h2 hcg hsp hl, hpv], ?_, ?_⟩
        · rw [cacheSet_visited]
        · exact cacheSet_coherent cfg hc hpv.symm
      | none =>
        have hpv : resolveRefPure store ref = .obj [] := by
          rw [resolveRefPure_noFrag hsp, hl]
          rfl
        refine ⟨{ s with calls := s.calls ++ [normPath p] },
          by rw [resolveRef_load_fail h1 h2 hcg hsp hl, hpv], rfl, ?_⟩
        exact hc
    | some frag =>
      cases hl : store (normPath p) with
      | none =>
        have hpv : resolveRefPure store ref = .obj [] :=
          resolveRefPure_frag_loadFail hsp hl
        refine ⟨{ s with calls := s.calls ++ [normPath p] },
          by rw [resolveRef_load_fail h1 h2 hcg hsp hl, hpv], rfl, ?_⟩
        exact hc
      | some doc =>
        cases hn : navigateFragment doc (fragPath frag) with
        | ok v =>
          have hpv : resolveRefPure store ref = v :=
            resolveRefPure_frag_ok hsp hl hn
          refine ⟨_, by rw [resolveRef_frag_ok h1 h2 hcg hsp hl hn, hpv], ?_, ?_⟩
          · rw [cacheSet_visited]
          · exact cacheSet_coherent cfg hc hpv.symm
        | error fe =>
          have hpv : resolveRefPure store ref = .obj [] :=
            resolveRefPure_frag_fail hsp hl hn
          refine ⟨{ s with calls := s.calls ++ [normPath p] },
            by rw [resolveRef_frag_fail h1 h2 hcg hsp hl hn, hpv], rfl, ?_⟩
          exact hc

/-- Every successful return of `resolveRef` leaves the visited set exactly
as it was at entry: the added reference is erased on each path, and the
cycle branch never added it. -/
theorem resolveRef_visited_eq {cfg : Config} {store : Store} {ref : String}
    {depth : Nat} {s : EngineState} {v : JSONValue} {s' : EngineState}
    (h : resolveRef cfg store ref depth s = .ok (v, s')) :
    s'.visited = s.visited := by
  by_cases h1 : cfg.maxDepth < depth
  · rw [resolveRef_depth h1] at h
    cases h
  · by_cases h2 : ref ∈ s.visited
    · rw [resolveRef_cycle h1 h2] at h
      cases h
      rfl
    · cases hcg : cacheGet cfg s ref with
      | some w =>
        rw [resolveRef_cache_hit h1 h2 hcg] at h
        cases h
        rfl
      | none =>
        rcases hsp : splitRef ref with ⟨p, frag⟩
        cases frag with
        | none =>
          cases hl : store (normPath p) with
          | some doc =>
            rw [resolveRef_load_ok h1 h2 hcg hsp hl] at h
            cases h
            rw [cacheSet_visited]
          | none =>
            rw [resolveRef_load_fail h1 h2 hcg hsp hl] at h
            cases h
            rfl
        | some frag =>
          cases hl : store (normPath p) with
          | none =>
            rw [resolveRef_load_fail h1 h2 hcg hsp hl] at h
            cases h
            rfl
          | some doc =>
            cases hn : navigateFragment doc (fragPath frag) with
            | ok w =>
              rw [resolveRef_frag_ok h1 h2 hcg hsp hl hn] at h
              cases h
              rw [cacheSet_visited]
            | error fe =>
              rw [resolveRef_frag_fail h1 h2 hcg hsp hl hn] at h
              cases h
              rfl

/- ---------- cache transparency: relating runs over the same store ---------- -/

/-- Two engine states that agree on the visited set and whose caches are
both coherent with the store; such states are indistinguishable to
resolution up to cache contents and call counts. -/
def StateRel (store : Store) (s₁ s₂ : EngineState) : Prop :=
  s₁.visited = s₂.visited ∧ cacheCoherent store s₁.cache ∧ cacheCoherent store s₂.cache

/-- Two resolution outcomes that agree observably: same error, or same
value with `StateRel`-related final states. -/
def ResRelG {α : Type} (store : Store) :
    Except JSONQLError (α × EngineState) → Except JSONQLError (α × EngineState) → Prop
  | .error e₁, .error e₂ => e₁ = e₂
  | .ok (a₁, s₁), .ok (a₂, s₂) => a₁ = a₂ ∧ StateRel store s₁ s₂
  | _, _ => False

theorem ResRelG_error_error {α : Type} {store : Store} {e₁ e₂ : JSONQLError} :
    ResRelG (α := α) store (.error e₁) (.error e₂) ↔ e₁ = e₂ := Iff.rfl

theorem ResRelG_ok_ok {α : Type} {store : Store} {a₁ a₂ : α}
    {s₁ s₂ : EngineState} :
    ResRelG store (.ok (a₁, s₁)) (.ok (a₂, s₂)) ↔ a₁ = a₂ ∧ StateRel store s₁ s₂ :=
  Iff.rfl

theorem ResRelG_error_ok {α : Type} {store : Store} {e : JSONQLError}
    {a : α} {s : EngineState} :
    ResRelG store (.error e) (.ok (a, s)) ↔ False := Iff.rfl

theorem ResRelG_ok_error {α : Type} {store : Store} {e : JSONQLError}
    {a : α} {s : EngineState} :
    ResRelG store (.ok (a, s)) (.error e) ↔ False := Iff.rfl

/-- The resolver `resolveRef` behaves observably the same from any two related states,
for any two configurations sharing the depth bound (the cache flag and the
cache contents do not influence the outcome). -/
theorem resolveRef_rel {cfg₁ cfg₂ : Config} {store : Store} {ref : String}
    {depth : Nat} {s₁ s₂ : EngineState} (hd : cfg₁.maxDepth = cfg₂.maxDepth)
    (hs : StateRel store s₁ s₂) :
    ResRelG store (resolveRef cfg₁ store ref depth s₁)
      (resolveRef cfg₂ store ref depth s₂) := by
  obtain ⟨hv, hc₁, hc₂⟩ := hs
  by_cases h1 : cfg₁.maxDepth < depth
  · rw [resolveRef_depth h1, resolveRef_depth (hd ▸ h1)]
    rw [ResRelG_error_error, hd]
  · have h1' : ¬ cfg₂.maxDepth < depth := hd ▸ h1
    by_cases h2 : ref ∈ s₁.visited
    · rw [resolveRef_cycle h1 h2, resolveRef_cycle h1' (hv ▸ h2)]
      exact ResRelG_ok_ok.mpr ⟨rfl, hv, hc₁, hc₂⟩
    · have h2' : ref ∉ s₂.visited := hv ▸ h2
      obtain ⟨t₁, e₁, v₁, c₁⟩ := resolveRef_pure_ok h1 h2 hc₁
      obtain ⟨t₂, e₂, v₂, c₂⟩ := resolveRef_pure_ok h1' h2' hc₂
      rw [e₁, e₂]
      exact ResRelG_ok_ok.mpr ⟨rfl, by rw [v₁, v₂, hv], c₁, c₂⟩

theorem resolveSeq_rel {store : Store}
    {f₁ f₂ : JSONValue → EngineState → Except JSONQLError (JSONValue × EngineState)}
    (hf : ∀ x t₁ t₂, StateRel store t₁ t₂ → ResRelG store (f₁ x t₁) (f₂ x t₂))
    (l : List JSONValue) :
    ∀ s₁ s₂, StateRel store s₁ s₂ →
      ResRelG store (resolveSeq f₁ l s₁) (resolveSeq f₂ l s₂) := by
  induction l with
  | nil =>
    intro s₁ s₂ hs
    exact ResRelG_ok_ok.mpr ⟨rfl, hs⟩
  | cons x xs ih =>
    intro s₁ s₂ hs
    have h := hf x s₁ s₂ hs
    simp only [resolveSeq]
    cases e₁ : f₁ x s₁ with
    | error err₁ =>
      cases e₂ : f₂ x s₂ with
      | error err₂ =>
        rw [e₁, e₂] at h
        exact ResRelG_error_error.mpr (ResRelG_error_error.mp h)
      | ok val₂ =>
        rw [e₁, e₂] at h
        obtain ⟨v₂, t₂⟩ := val₂
        exact (ResRelG_error_ok.mp h).elim
    | ok val₁ =>
      obtain ⟨v₁, t₁⟩ := val₁
      cases e₂ : f₂ x s₂ with
      | error err₂ =>
        rw [e₁, e₂] at h
        exact (ResRelG_ok_error.mp h).elim
      | ok val₂ =>
        obtain ⟨v₂, t₂⟩ := val₂
        rw [e₁, e₂] at h
        obtain ⟨hveq, hst⟩ := ResRelG_ok_ok.mp h
        subst hveq
        have ihr := ih t₁ t₂ hst
        dsimp only
        cases r₁ : resolveSeq f₁ xs t₁ with
        | error err₁ =>
          cases r₂ : resolveSeq f₂ xs t₂ with
          | error err₂ =>
            rw [r₁, r₂] at ihr
            exact ihr
          | ok w₂ =>
            rw [r₁, r₂] at ihr
            obtain ⟨vs₂, u₂⟩ := w₂
            exact (ResRelG_error_ok.mp ihr).elim
        | ok w₁ =>
          obtain ⟨vs₁, u₁⟩ := w₁
          cases r₂ : resolveSeq f₂ xs t₂ with
          | error err₂ =>
            rw [r₁, r₂] at ihr
            exact (ResRelG_ok_error.mp ihr).elim
          | ok w₂ =>
            obtain ⟨vs₂, u₂⟩ := w₂
            rw [r₁, r₂] at ihr
            obtain ⟨hws, hst'⟩ := ResRelG_ok_ok.mp ihr
            subst hws
            exact ⟨rfl, hst'⟩

theorem resolveFieldsSeq_rel {store : Store}
    {f₁ f₂ : SelTree → JSONValue → EngineState →
      Except JSONQLError (JSONValue × EngineState)}
    (hf : ∀ sub x t₁ t₂, StateRel store t₁ t₂ →
      ResRelG store (f₁ sub x t₁) (f₂ sub x t₂))
    (sel : SelTree) (fields : List (String × JSONValue)) :
    ∀ s₁ s₂, StateRel store s₁ s₂ →
      ResRelG store (resolveFieldsSeq f₁ sel fields s₁)
        (resolveFieldsSeq f₂ sel fields s₂) := by
  induction fields with
  | nil =>
    intro s₁ s₂ hs
    exact ResRelG_ok_ok.mpr ⟨rfl, hs⟩
  | cons kv rest ih =>
    obtain ⟨k, v⟩ := kv
    intro s₁ s₂ hs
    simp only [resolveFieldsSeq]
    by_cases hksel : (selHas sel k || selIsEmpty sel) = true
    · rw [if_pos hksel, if_pos hksel]
      have h := hf (selChild sel k) v s₁ s₂ hs
      cases e₁ : f₁ (selChild sel k) v s₁ with
      | error err₁ =>
        cases e₂ : f₂ (selChild sel k) v s₂ with
        | error err₂ =>
          rw [e₁, e₂] at h
          exact ResRelG_error_error.mpr (ResRelG_error_error.mp h)
        | ok val₂ =>
          rw [e₁, e₂] at h
          obtain ⟨v₂, t₂⟩ := val₂
          exact (ResRelG_error_ok.mp h).elim
      | ok val₁ =>
        obtain ⟨v₁, t₁⟩ := val₁
        cases e₂ : f₂ (selChild sel k) v s₂ with
        | error err₂ =>
          rw [e₁, e₂] at h
          exact (ResRelG_ok_error.mp h).elim
        | ok val₂ =>
          obtain ⟨v₂, t₂⟩ := val₂
          rw [e₁, e₂] at h
          obtain ⟨hveq, hst⟩ := ResRelG_ok_ok.mp h
          subst hveq
          have ihr := ih t₁ t₂ hst
          dsimp only
          cases r₁ : resolveFieldsSeq f₁ sel rest t₁ with
          | error err₁ =>
            cases r₂ : resolveFieldsSeq f₂ sel rest t₂ with
            | error err₂ =>
              rw [r₁, r₂] at ihr
              exact ihr
            | ok w₂ =>
              rw [r₁, r₂] at ihr
              obtain ⟨fs₂, u₂⟩ := w₂
              exact (ResRelG_error_ok.mp ihr).elim
          | ok w₁ =>
            obtain ⟨fs₁, u₁⟩ := w₁
            cases r₂ : resolveFieldsSeq f₂ sel rest t₂ with
            | error err₂ =>
              rw [r₁, r₂] at ihr
              exact (ResRelG_ok_error.mp ihr).elim
            | ok w₂ =>
              obtain ⟨fs₂, u₂⟩ := w₂
              rw [r₁, r₂] at ihr
              obtain ⟨hws, hst'⟩ := ResRelG_ok_ok.mp ihr
              subst hws
              exact ⟨rfl, hst'⟩
    · rw [if_neg hksel, if_neg hksel]
      exact ih s₁ s₂ hs

/-- Selective expansion behaves observably the same from any two related
states, for configurations sharing the depth bound: the cache can change
which loads happen, never the outcome. -/
theorem goResolve_rel {store : Store} (cfg₁ cfg₂ : Config)
    (hd : cfg₁.maxDepth = cfg₂.maxDepth) :
    ∀ (fuel depth : Nat) (data : JSONValue) (sel : SelTree)
      (s₁ s₂ : EngineState), StateRel store s₁ s₂ →
      ResRelG store (goResolve cfg₁ store fuel depth data sel s₁)
        (goResolve cfg₂ store fuel depth data sel s₂) := by
  intro fuel
  induction fuel with
  | zero =>
    intro depth data sel s₁ s₂ _
    show ResRelG store (.error (.maxDepthExceeded cfg₁.maxDepth))
      (.error (.maxDepthExceeded cfg₂.maxDepth))
    rw [ResRelG_error_error, hd]
  | succ fuel ih =>
    intro depth data sel s₁ s₂ hs
    cases data with
    | null =>
      simp only [goResolve]
      exact ResRelG_ok_ok.mpr ⟨rfl, hs⟩
    | bool b =>
      simp only [goResolve]
      exact ResRelG_ok_ok.mpr ⟨rfl, hs⟩
    | num n =>
      simp only [goResolve]
      exact ResRelG_ok_ok.mpr ⟨rfl, hs⟩
    | str t =>
      simp only [goResolve]
      exact ResRelG_ok_ok.mpr ⟨rfl, hs⟩
    | hostFn f =>
      simp only [goResolve]
      exact ResRelG_ok_ok.mpr ⟨rfl, hs⟩
    | arr items =>
      simp only [goResolve]
      have hseq := @resolveSeq_rel store
        (fun x s' => goResolve cfg₁ store fuel (depth + 1) x sel s')
        (fun x s' => goResolve cfg₂ store fuel (depth + 1) x sel s')
        (fun x t₁ t₂ ht => ih (depth + 1) x sel t₁ t₂ ht) items s₁ s₂ hs
      cases r₁ : resolveSeq
          (fun x s' => goResolve cfg₁ store fuel (depth + 1) x sel s') items s₁ with
      | error err₁ =>
        cases r₂ : resolveSeq
            (fun x s' => goResolve cfg₂ store fuel (depth + 1) x sel s') items s₂ with
        | error err₂ =>
          rw [r₁, r₂] at hseq
          exact hseq
        | ok w₂ =>
          rw [r₁, r₂] at hseq
          obtain ⟨vs₂, u₂⟩ := w₂
          exact (ResRelG_error_ok.mp hseq).elim
      | ok w₁ =>
        obtain ⟨vs₁, u₁⟩ := w₁
        cases r₂ : resolveSeq
            (fun x s' => goResolve cfg₂ store fuel (depth + 1) x sel s') items s₂ with
        | error err₂ =>
          rw [r₁, r₂] at hseq
          exact (ResRelG_ok_error.mp hseq).elim
        | ok w₂ =>
          obtain ⟨vs₂, u₂⟩ := w₂
          rw [r₁, r₂] at hseq
          obtain ⟨hvs, hst⟩ := ResRelG_ok_ok.mp hseq
          subst hvs
          exact ⟨rfl, hst⟩
    | obj fields =>
      cases hr : refString fields with
      | some r =>
        simp only [goResolve, hr]
        have hrr := @resolveRef_rel cfg₁ cfg₂ store r depth s₁ s₂ hd hs
        cases e₁ : resolveRef cfg₁ store r depth s₁ with
        | error err₁ =>
          cases e₂ : resolveRef cfg₂ store r depth s₂ with
          | error err₂ =>
            rw [e₁, e₂] at hrr
            exact hrr
          | ok val₂ =>
            rw [e₁, e₂] at hrr
            obtain ⟨v₂, t₂⟩ := val₂
            exact (ResRelG_error_ok.mp hrr).elim
        | ok val₁ =>
          obtain ⟨v₁, t₁⟩ := val₁
          cases e₂ : resolveRef cfg₂ store r depth s₂ with
          | error err₂ =>
            rw [e₁, e₂] at hrr
            exact (ResRelG_ok_error.mp hrr).elim
          | ok val₂ =>
            obtain ⟨v₂, t₂⟩ := val₂
            rw [e₁, e₂] at hrr
            obtain ⟨hveq, hst⟩ := ResRelG_ok_ok.mp hrr
            subst hveq
            dsimp only
            exact ih (depth + 1) v₁ sel t₁ t₂ hst
      | none =>
        simp only [goResolve, hr]
        have hseq := @resolveFieldsSeq_rel store
          (fun sub v s' => goResolve cfg₁ store fuel (depth + 1) v sub s')
          (fun sub v s' => goResolve cfg₂ store fuel (depth + 1) v sub s')
          (fun sub x t₁ t₂ ht => ih (depth + 1) x sub t₁ t₂ ht) sel fields s₁ s₂ hs
        cases r₁ : resolveFieldsSeq
            (fun sub v s' => goResolve cfg₁ store fuel (depth + 1) v sub s')
            sel fields s₁ with
        | error err₁ =>
          cases r₂ : resolveFieldsSeq
              (fun sub v s' => goResolve cfg₂ store fuel (depth + 1) v sub s')
              sel fields s₂ with
          | error err₂ =>
            rw [r₁, r₂] at hseq
            exact hseq
          | ok w₂ =>
            rw [r₁, r₂] at hseq
            obtain ⟨fs₂, u₂⟩ := w₂
            exact (ResRelG_error_ok.mp hseq).elim
        | ok w₁ =>
          obtain ⟨fs₁, u₁⟩ := w₁
          cases r₂ : resolveFieldsSeq
              (fun sub v s' => goResolve cfg₂ store fuel (depth + 1) v sub s')
              sel fields s₂ with
          | error err₂ =>
            rw [r₁, r₂] at hseq
            exact (ResRelG_ok_error.mp hseq).elim
          | ok w₂ =>
            obtain ⟨fs₂, u₂⟩ := w₂
            rw [r₁, r₂] at hseq
            obtain ⟨hfs, hst⟩ := ResRelG_ok_ok.mp hseq
            subst hfs
            exact ⟨rfl, hst⟩

theorem resolveAllRefs_rel {cfg₁ cfg₂ : Config} {store : Store}
    {data : JSONValue} {sel : SelTree} {depth : Nat} {s₁ s₂ : EngineState}
    (hd : cfg₁.maxDepth = cfg₂.maxDepth) (hs : StateRel store s₁ s₂) :
    ResRelG store (resolveAllRefs cfg₁ store data sel depth s₁)
      (resolveAllRefs cfg₂ store data sel depth s₂) := by
  unfold resolveAllRefs
  have hfuel : cfg₁.maxDepth + 1 - depth = cfg₂.maxDepth + 1 - depth := by rw [hd]
  rw [hfuel]
  exact goResolve_rel cfg₁ cfg₂ hd _ depth data sel s₁ s₂ hs

theorem queryFields_rel {cfg₁ cfg₂ : Config} {store : Store} {root : JSONValue}
    (hd : cfg₁.maxDepth = cfg₂.maxDepth) (selFields : List (String × SelTree)) :
    ∀ s₁ s₂, StateRel store s₁ s₂ →
      ResRelG store (queryFields cfg₁ store root selFields s₁)
        (queryFields cfg₂ store root selFields s₂) := by
  induction selFields with
  | nil =>
    intro s₁ s₂ hs
    exact ResRelG_ok_ok.mpr ⟨rfl, hs⟩
  | cons kv rest ih =>
    obtain ⟨k, sub⟩ := kv
    intro s₁ s₂ hs
    simp only [queryFields]
    cases hg : rootGet root k with
    | none => exact ih s₁ s₂ hs
    | some v =>
      dsimp only
      have hra := @resolveAllRefs_rel cfg₁ cfg₂ store v sub 0 s₁ s₂ hd hs
      cases e₁ : resolveAllRefs cfg₁ store v sub 0 s₁ with
      | error err₁ =>
        cases e₂ : resolveAllRefs cfg₂ store v sub 0 s₂ with
        | error err₂ =>
          rw [e₁, e₂] at hra
          exact hra
        | ok val₂ =>
          rw [e₁, e₂] at hra
          obtain ⟨v₂, t₂⟩ := val₂
          exact (ResRelG_error_ok.mp hra).elim
      | ok val₁ =>
        obtain ⟨v₁, t₁⟩ := val₁
        cases e₂ : resolveAllRefs cfg₂ store v sub 0 s₂ with
        | error err₂ =>
          rw [e₁, e₂] at hra
          exact (ResRelG_ok_error.mp hra).elim
        | ok val₂ =>
          obtain ⟨v₂, t₂⟩ := val₂
          rw [e₁, e₂] at hra
          obtain ⟨hveq, hst⟩ := ResRelG_ok_ok.mp hra
          subst hveq
          have ihr := ih t₁ t₂ hst
          dsimp only
          cases r₁ : queryFields cfg₁ store root rest t₁ with
          | error err₁ =>
            cases r₂ : queryFields cfg₂ store root rest t₂ with
            | error err₂ =>
              rw [r₁, r₂] at ihr
              exact ihr
            | ok w₂ =>
              rw [r₁, r₂] at ihr
              obtain ⟨fs₂, u₂⟩ := w₂
              exact (ResRelG_error_ok.mp ihr).elim
          | ok w₁ =>
            obtain ⟨fs₁, u₁⟩ := w₁
            cases r₂ : queryFields cfg₂ store root rest t₂ with
            | error err₂ =>
              rw [r₁, r₂] at ihr
              exact (ResRelG_ok_error.mp ihr).elim
            | ok w₂ =>
              obtain ⟨fs₂, u₂⟩ := w₂
              rw [r₁, r₂] at ihr
              obtain ⟨hfs, hst'⟩ := ResRelG_ok_ok.mp ihr
              subst hfs
              exact ⟨rfl, hst'⟩

/-- Observable-result projection: two related outcomes yield the same
caller-visible `Except` once the engine state is discarded. -/
theorem ResRelG_map_fst {α : Type} {store : Store}
    {r₁ r₂ : Except JSONQLError (α × EngineState)} (h : ResRelG store r₁ r₂) :
    r₁.map Prod.fst = r₂.map Prod.fst := by
  cases r₁ with
  | error e₁ =>
    cases r₂ with
    | error e₂ => rw [ResRelG_error_error.mp h]
    | ok v₂ =>
      obtain ⟨a₂, s₂⟩ := v₂
      exact (ResRelG_error_ok.mp h).elim
  | ok v₁ =>
    obtain ⟨a₁, s₁⟩ := v₁
    cases r₂ with
    | error e₂ => exact (ResRelG_ok_error.mp h).elim
    | ok v₂ =>
      obtain ⟨a₂, s₂⟩ := v₂
      obtain ⟨ha, _⟩ := ResRelG_ok_ok.mp h
      rw [ha]
      rfl

/-- The caller-visible result of `queryRun` depends only on the depth
bound and the document set, never on the cache flag or the (coherent)
cache contents or the visited set or the call log. -/
theorem queryRun_result_rel {cfg₁ cfg₂ : Config} {store : Store}
    {entry : String} {sel : SelTree} {s₁ s₂ : EngineState}
    (hd : cfg₁.maxDepth = cfg₂.maxDepth)
    (hc₁ : cacheCoherent store s₁.cache) (hc₂ : cacheCoherent store s₂.cache) :
    (queryRun cfg₁ store entry sel s₁).map Prod.fst =
      (queryRun cfg₂ store entry sel s₂).map Prod.fst := by
  unfold queryRun
  simp only [loadJSON]
  cases hload : store (normPath entry) with
  | none => rfl
  | some root =>
    by_cases hone : sel.fields.isEmpty
    · simp only [hone, if_true]
      rfl
    · simp only [hone, if_false]
      by_cases hcomp : isCompound root = true
      · simp only [hcomp, if_true]
        have hq := @queryFields_rel cfg₁ cfg₂ store root hd sel.fields
          { s₁ with visited := [], calls := s₁.calls ++ [normPath entry] }
          { s₂ with visited := [], calls := s₂.calls ++ [normPath entry] }
          ⟨rfl, hc₁, hc₂⟩
        cases r₁ : queryFields cfg₁ store root sel.fields
            { s₁ with visited := [], calls := s₁.calls ++ [normPath entry] } with
        | error err₁ =>
          cases r₂ : queryFields cfg₂ store root sel.fields
              { s₂ with visited := [], calls := s₂.calls ++ [normPath entry] } with
          | error err₂ =>
            rw [r₁, r₂] at hq
            rw [ResRelG_error_error.mp hq]
            rfl
          | ok w₂ =>
            rw [r₁, r₂] at hq
            obtain ⟨fs₂, u₂⟩ := w₂
            exact (ResRelG_error_ok.mp hq).elim
        | ok w₁ =>
          obtain ⟨fs₁, u₁⟩ := w₁
          cases r₂ : queryFields cfg₂ store root sel.fields
              { s₂ with visited := [], calls := s₂.calls ++ [normPath entry] } with
          | error err₂ =>
            rw [r₁, r₂] at hq
            exact (ResRelG_ok_error.mp hq).elim
          | ok w₂ =>
            obtain ⟨fs₂, u₂⟩ := w₂
            rw [r₁, r₂] at hq
            obtain ⟨hfs, _⟩ := ResRelG_ok_ok.mp hq
            subst hfs
            rfl
      · simp only [hcomp, if_false]
        rfl

/- ---------- further concrete fixtures ---------- -/

/-- A document set with one document `d = {"x": 1}`, used to exercise
fragment navigation. -/
def fragStore : Store :=
  fun p => if p = "d" then some (.obj [("x", .num 1)]) else none

/- ====================================================================
   Claims
   ==================================================================== -/

/-- C10: the constructor computes `options.maxDepth || 10`, and `0` is
falsy in JS, so an engine constructed with `maxDepth: 0` gets the same
effective bound 10 as one constructed without `maxDepth`; a zero depth
limit cannot be configured. -/
theorem c10_zero_maxDepth_defaults (c : Option Bool) :
    (mkConfig { maxDepth := some 0, cache := c }).maxDepth = 10 ∧
      (mkConfig { maxDepth := none, cache := c }).maxDepth = 10 ∧
      (mkConfig { maxDepth := some 0, cache := c }).maxDepth =
        (mkConfig { maxDepth := none, cache := c }).maxDepth :=
  ⟨rfl, rfl, rfl⟩

/-- C3: on every exit path that returns (cache hit, successful load, load
error, fragment error — and the cycle branch, which cannot fire in a
top-level call), `resolveRef` clears the reference from the visited set:
a call entered with `ref` not in the Visited-Set leaves the Visited-Set
without `ref` (in fact unchanged). -/
theorem c3_visited_cleared (cfg : Config) (store : Store) (ref : String)
    (depth : Nat) (s : EngineState) (v : JSONValue) (s' : EngineState)
    (h2 : ref ∉ s.visited)
    (h : resolveRef cfg store ref depth s = .ok (v, s')) :
    ref ∉ s'.visited := by
  rw [resolveRef_visited_eq h]
  exact h2

theorem c3_visited_cleared_witness :
    "r" ∉ initState.visited ∧
      resolveRef ⟨10, true⟩ emptyStore "r" 0 initState =
        .ok (.obj [], ⟨[], [], ["r"]⟩) ∧
      "r" ∉ (⟨[], [], ["r"]⟩ : EngineState).visited :=
  ⟨by decide, rfl,
    c3_visited_cleared ⟨10, true⟩ emptyStore "r" 0 initState (.obj [])
      ⟨[], [], ["r"]⟩ (by decide) rfl⟩

/-- C4 counterexample: with an empty document set, resolving the
reference `"missing"` does not surface any error: `resolveRef` catches
the load failure and returns an empty object (`return {}` on the error
path of `src/parser.ts` lines 112-116), so the claimed `ResolutionError`
is never produced. -/
theorem c4_counterexample :
    resolveRef ⟨10, true⟩ emptyStore "missing" 0 initState =
        .ok (.obj [], ⟨[], [], ["missing"]⟩) ∧
      ¬ ∃ e, resolveRef ⟨10, true⟩ emptyStore "missing" 0 initState =
        .error e := by
  refine ⟨rfl, ?_⟩
  rintro ⟨e, he⟩
  rw [show resolveRef ⟨10, true⟩ emptyStore "missing" 0 initState =
    .ok (.obj [], ⟨[], [], ["missing"]⟩) from rfl] at he
  cases he

/-- C4 amended: a reference whose path fails to load from the Document
Store does not crash the query, but it is not surfaced as an error
either: `resolveRef` catches the store failure, removes the reference
from the visited set, leaves the cache untouched and returns an empty
object. -/
theorem c4_load_failure_empty_object (cfg : Config) (store : Store)
    (ref : String) (depth : Nat) (s : EngineState)
    (h1 : ¬ cfg.maxDepth < depth) (h2 : ref ∉ s.visited)
    (hcg : cacheGet cfg s ref = none)
    (hl : store (normPath (splitRef ref).1) = none) :
    resolveRef cfg store ref depth s =
      .ok (.obj [], { s with calls := s.calls ++ [normPath (splitRef ref).1] }) :=
  resolveRef_load_fail h1 h2 hcg rfl hl

theorem c4_load_failure_empty_object_witness :
    (¬ (10 : Nat) < 0) ∧ "missing" ∉ initState.visited ∧
      cacheGet ⟨10, true⟩ initState "missing" = none ∧
      emptyStore (normPath (splitRef "missing").1) = none ∧
      resolveRef ⟨10, true⟩ emptyStore "missing" 0 initState =
        .ok (.obj [], { initState with
          calls := initState.calls ++ [normPath (splitRef "missing").1] }) :=
  ⟨by decide, by decide, rfl, rfl,
    c4_load_failure_empty_object ⟨10, true⟩ emptyStore "missing" 0 initState
      (by decide) (by decide) rfl rfl⟩

/-- C8 counterexample: the document at `d` is `{"x": 1}` and the
reference `"d#missing"` names an absent fragment segment, yet
`resolveRef` does not fail: the fragment error is caught and an empty
object is substituted (`result = {}` in `src/parser.ts` lines 153-159). -/
theorem c8_counterexample :
    resolveRef ⟨10, true⟩ fragStore "d#missing" 0 initState =
        .ok (.obj [], ⟨[], [], ["d"]⟩) ∧
      ¬ ∃ e, resolveRef ⟨10, true⟩ fragStore "d#missing" 0 initState =
        .error e := by
  refine ⟨rfl, ?_⟩
  rintro ⟨e, he⟩
  rw [show resolveRef ⟨10, true⟩ fragStore "d#missing" 0 initState =
    .ok (.obj [], ⟨[], [], ["d"]⟩) from rfl] at he
  cases he

/-- C8 amended: fragment navigation splits the fragment on `/` and walks
each segment into the current value with the JS property read
(`navigateFragment` over `navGet`, mirroring the loop of
`src/parser.ts` lines 136-148): own properties, canonical array indices,
array `length`, and the inherited prototype function members are all
found — in particular a walk ending at an inherited member hands that
host value to the resolver, which caches and returns it like a document
value.  Only when a step yields `undefined` (`FragError.missing`) or
reaches a non-navigable value (`FragError.notNavigable`) does the
resolver act, and then it does not fail with `FragmentNotFound`: it
substitutes an empty object, leaving the cache unchanged.  Fragment
paths that read the unmodelled `__proto__` accessor are excluded by
hypothesis. -/
theorem c8_fragment_walk_fallback (cfg : Config) (store : Store)
    (ref : String) (depth : Nat) (s : EngineState) (p frag : String)
    (doc : JSONValue)
    (h1 : ¬ cfg.maxDepth < depth) (h2 : ref ∉ s.visited)
    (hcg : cacheGet cfg s ref = none) (hs : splitRef ref = (p, some frag))
    (hl : store (normPath p) = some doc)
    (hproto : "__proto__" ∉ fragPath frag) :
    (∀ v, navigateFragment doc (fragPath frag) = .ok v →
      resolveRef cfg store ref depth s =
        .ok (v, cacheSet cfg { s with calls := s.calls ++ [normPath p] } ref v)) ∧
    (∀ fe, navigateFragment doc (fragPath frag) = .error fe →
      resolveRef cfg store ref depth s =
        .ok (.obj [], { s with calls := s.calls ++ [normPath p] })) :=
  ⟨fun _ hn => resolveRef_frag_ok h1 h2 hcg hs hl hn,
   fun _ hn => resolveRef_frag_fail h1 h2 hcg hs hl hn⟩

theorem c8_fragment_walk_fallback_witness :
    (¬ (10 : Nat) < 0) ∧ "d#missing" ∉ initState.visited ∧
      cacheGet ⟨10, true⟩ initState "d#missing" = none ∧
      splitRef "d#missing" = ("d", some "missing") ∧
      fragStore (normPath "d") = some (.obj [("x", .num 1)]) ∧
      "__proto__" ∉ fragPath "missing" ∧
      navigateFragment (.obj [("x", .num 1)]) (fragPath "missing") =
        .error .missing ∧
      resolveRef ⟨10, true⟩ fragStore "d#missing" 0 initState =
        .ok (.obj [], { initState with
          calls := initState.calls ++ [normPath "d"] }) :=
  ⟨by decide, by decide, rfl, rfl, rfl, by decide, rfl,
    (c8_fragment_walk_fallback ⟨10, true⟩ fragStore "d#missing" 0 initState
      "d" "missing" (.obj [("x", .num 1)]) (by decide) (by decide) rfl rfl
      rfl (by decide)).2 .missing rfl⟩

theorem alookup_cons_self {α : Type} (k : String) (v : α)
    (l : List (String × α)) : alookup ((k, v) :: l) k = some v := by
  show (if k = k then some v else alookup l k) = some v
  rw [if_pos rfl]

theorem alookup_cons_ne {α : Type} {k' k : String} (h : k' ≠ k) (v : α)
    (l : List (String × α)) : alookup ((k', v) :: l) k = alookup l k := by
  show (if k' = k then some v else alookup l k) = alookup l k
  rw [if_neg h]

/-- Key lemma for C5: a selected key whose child selection is the empty
leaf marker and whose data value is an Object projects to an empty
Object under `filterFields`. -/
theorem filterFields_object_leaf {df : List (String × JSONValue)}
    {k : String} {inner : List (String × JSONValue)}
    (hdf : alookup df k = some (.obj inner)) :
    ∀ sf : List (String × SelTree), alookup sf k = some (.node []) →
      alookup (filterFields df sf) k = some (.obj []) := by
  intro sf
  induction sf with
  | nil =>
    intro hsf
    simp [alookup] at hsf
  | cons kv rest ih =>
    obtain ⟨k', sub⟩ := kv
    intro hsf
    by_cases hk : k' = k
    · subst hk
      rw [alookup_cons_self] at hsf
      cases hsf
      have hstep : filterFields df ((k', SelTree.node []) :: rest) =
          (k', JSONValue.obj []) :: filterFields df rest := by
        simp only [filterFields]
        split
        · rename_i heq
          rw [hdf] at heq
          cases heq
        · rename_i v heq
          rw [hdf] at heq
          injection heq with hv
          subst hv
          simp [isCompound, filterResponse, SelTree.fields, filterFields]
      rw [hstep, alookup_cons_self]
    · rw [alookup_cons_ne hk] at hsf
      have htail := ih hsf
      have hstep : alookup (filterFields df ((k', sub) :: rest)) k =
          alookup (filterFields df rest) k := by
        simp only [filterFields]
        split
        · rfl
        · rw [alookup_cons_ne hk]
      rw [hstep]
      exact htail

/-- C5 counterexample: the claim covers every compound value (Object or
Array), but for an Array under an empty child selection `filterResponse`
recurses element-wise instead of producing an empty Object:
`project({"a": [1]}, {"a": {}})` is `{"a": [1]}`, not `{"a": {}}`. -/
theorem c5_counterexample :
    filterResponse (.obj [("a", .arr [.num 1])]) (.node [("a", .node [])]) =
        .obj [("a", .arr [.num 1])] ∧
      filterResponse (.obj [("a", .arr [.num 1])]) (.node [("a", .node [])]) ≠
        .obj [("a", .obj [])] := by
  have h : filterResponse (.obj [("a", .arr [.num 1])]) (.node [("a", .node [])]) =
      .obj [("a", .arr [.num 1])] := by
    simp [filterResponse, filterFields, filterList, SelTree.fields, alookup,
      isCompound]
  refine ⟨h, ?_⟩
  rw [h]
  simp

/-- C5 amended: with the claim restricted to Object values it holds: a
selected key whose child tree is the empty leaf marker and whose value is
an Object projects to an empty Object, and in particular
`project({"a": {"x": 1}}, {"a": {}})` is `{"a": {}}` and not
`{"a": {"x": 1}}`.  (Array values instead project element-wise, see the
counterexample.) -/
theorem c5_object_leaf_projects_empty (df : List (String × JSONValue))
    (sf : List (String × SelTree)) (k : String)
    (inner : List (String × JSONValue))
    (hsf : alookup sf k = some (.node []))
    (hdf : alookup df k = some (.obj inner)) :
    (∃ out, filterResponse (.obj df) (.node sf) = .obj out ∧
      alookup out k = some (.obj [])) ∧
      filterResponse (.obj [("a", .obj [("x", .num 1)])])
          (.node [("a", .node [])]) = .obj [("a", .obj [])] ∧
      filterResponse (.obj [("a", .obj [("x", .num 1)])])
          (.node [("a", .node [])]) ≠ .obj [("a", .obj [("x", .num 1)])] := by
  refine ⟨⟨filterFields df sf, ?_, filterFields_object_leaf hdf sf hsf⟩, ?_, ?_⟩
  · simp only [filterResponse, SelTree.fields]
  · simp [filterResponse, filterFields, filterList, SelTree.fields, alookup,
      isCompound]
  · have h : filterResponse (.obj [("a", .obj [("x", .num 1)])])
        (.node [("a", .node [])]) = .obj [("a", .obj [])] := by
      simp [filterResponse, filterFields, filterList, SelTree.fields, alookup,
        isCompound]
    rw [h]
    simp

theorem c5_object_leaf_projects_empty_witness :
    alookup [("a", SelTree.node [])] "a" = some (.node []) ∧
      alookup [("a", JSONValue.obj [("x", JSONValue.num 1)])] "a" =
        some (.obj [("x", .num 1)]) ∧
      (∃ out, filterResponse (.obj [("a", .obj [("x", .num 1)])])
          (.node [("a", .node [])]) = .obj out ∧
        alookup out "a" = some (.obj [])) :=
  ⟨rfl, rfl,
    (c5_object_leaf_projects_empty [("a", .obj [("x", .num 1)])]
      [("a", .node [])] "a" [("x", .num 1)] rfl rfl).1⟩

/-- Key lemma for C6: the field loop of `resolveAllRefs` never touches an
unselected key (the selection is non-empty and lacks `k`), so removing
every `k`-entry from the object leaves the whole computation — result
value, cache, visited set and Document Store call log — unchanged. -/
theorem resolveFieldsSeq_unselected
    {f : SelTree → JSONValue → EngineState →
      Except JSONQLError (JSONValue × EngineState)}
    {sel : SelTree} {k : String}
    (hsel : selHas sel k = false) (hne : selIsEmpty sel = false) :
    ∀ (fields : List (String × JSONValue)) (s : EngineState),
      resolveFieldsSeq f sel fields s =
        resolveFieldsSeq f sel (fields.filter (fun p => p.1 != k)) s := by
  intro fields
  induction fields with
  | nil => intro s; rfl
  | cons kv rest ih =>
    obtain ⟨k', v⟩ := kv
    intro s
    by_cases hk : k' = k
    · subst hk
      have hdrop : ((k', v) :: rest).filter (fun p => p.1 != k') =
          rest.filter (fun p => p.1 != k') := by
        simp [List.filter_cons]
      rw [hdrop]
      have hcond : (selHas sel k' || selIsEmpty sel) = false := by
        simp [hsel, hne]
      simp only [resolveFieldsSeq, hcond, Bool.false_eq_true, if_false]
      exact ih s
    · have hkeep : ((k', v) :: rest).filter (fun p => p.1 != k) =
          (k', v) :: rest.filter (fun p => p.1 != k) := by
        simp [List.filter_cons, hk]
      rw [hkeep]
      simp only [resolveFieldsSeq]
      by_cases hcond : (selHas sel k' || selIsEmpty sel) = true
      · rw [if_pos hcond, if_pos hcond]
        cases hf : f (selChild sel k') v s with
        | error e => rfl
        | ok w =>
          obtain ⟨v', s'⟩ := w
          dsimp only
          rw [ih s']
      · rw [if_neg hcond, if_neg hcond]
        exact ih s

/-- A document set with one document `u = 5`, the target of the
reference stored under a prototype-named key. -/
def protoStore : Store := fun p => if p = "u" then some (.num 5) else none

/-- C6 counterexample: `"toString"` is not a key of the Selection Tree
`{b: {}}`, yet expanding `{"toString": {"$ref": "u"}, "b": 1}` under it
resolves the reference: `"toString" in selections` is true through the
prototype chain, so the code enters the branch, loads `u` from the
Document Store (the call log ends up `["u"]`, versus an untouched store
when the key is dropped) and keeps the key in the result. -/
theorem c6_counterexample :
    alookup (SelTree.fields (.node [("b", .node [])])) "toString" = none ∧
      selIsEmpty (.node [("b", .node [])]) = false ∧
      resolveAllRefs ⟨10, true⟩ protoStore
          (.obj [("toString", refObj "u"), ("b", .num 1)])
          (.node [("b", .node [])]) 0 initState =
        .ok (.obj [("toString", .num 5), ("b", .num 1)],
          ⟨[("u", .num 5)], [], ["u"]⟩) ∧
      resolveAllRefs ⟨10, true⟩ protoStore
          (.obj [("b", .num 1)]) (.node [("b", .node [])]) 0 initState =
        .ok (.obj [("b", .num 1)], initState) :=
  ⟨rfl, rfl, rfl, rfl⟩

/-- C6 amended: a reference sitting under a key that a non-empty
Selection Tree does not select — where "selected" is the JS `in` test,
so the key must be neither an own selection key nor one of the inherited
`Object.prototype` names (`toString`, `constructor`, ...) — is never
resolved: dropping that key from the document changes nothing about the
expansion — same outcome, same cache, same visited set, and in
particular the same Document Store call log, so the store is never
invoked for that reference.  (For a prototype-named key the code does
resolve the reference; see the counterexample.) -/
theorem c6_selective_laziness (cfg : Config) (store : Store)
    (fields : List (String × JSONValue)) (sel : SelTree) (depth : Nat)
    (s : EngineState) (k r : String)
    (href : refString fields = none)
    (hk : alookup fields k = some (refObj r))
    (hsel : selHas sel k = false) (hne : selIsEmpty sel = false) :
    resolveAllRefs cfg store (.obj fields) sel depth s =
      resolveAllRefs cfg store (.obj (fields.filter (fun p => p.1 != k)))
        sel depth s := by
  unfold resolveAllRefs
  cases hfuel : cfg.maxDepth + 1 - depth with
  | zero => rfl
  | succ fuel =>
    have href' : refString (fields.filter (fun p => p.1 != k)) = none := by
      unfold refString at href ⊢
      by_cases hrk : k = "$ref"
      · subst hrk
        rw [alookup_filter_self]
      · rw [alookup_filter_ne _ _ _ (fun h => hrk h.symm)]
        exact href
    simp only [goResolve, href, href']
    rw [resolveFieldsSeq_unselected hsel hne fields s]

theorem c6_selective_laziness_witness :
    refString [("a", refObj "u"), ("b", JSONValue.num 1)] = none ∧
      alookup [("a", refObj "u"), ("b", JSONValue.num 1)] "a" =
        some (refObj "u") ∧
      selHas (.node [("b", .node [])]) "a" = false ∧
      selIsEmpty (.node [("b", .node [])]) = false ∧
      resolveAllRefs ⟨10, true⟩ emptyStore
          (.obj [("a", refObj "u"), ("b", JSONValue.num 1)])
          (.node [("b", .node [])]) 0 initState =
        resolveAllRefs ⟨10, true⟩ emptyStore
          (.obj (([("a", refObj "u"), ("b", JSONValue.num 1)]).filter
            (fun p => p.1 != "a")))
          (.node [("b", .node [])]) 0 initState :=
  ⟨rfl, rfl, rfl, rfl,
    c6_selective_laziness ⟨10, true⟩ emptyStore
      [("a", refObj "u"), ("b", JSONValue.num 1)] (.node [("b", .node [])])
      0 initState "a" "u" rfl rfl rfl rfl⟩

/-- Every successful `resolveSeq` run yields as many outputs as inputs. -/
theorem resolveSeq_ok_length
    {f : JSONValue → EngineState → Except JSONQLError (JSONValue × EngineState)} :
    ∀ (l : List JSONValue) (s : EngineState) (vs : List JSONValue)
      (s' : EngineState), resolveSeq f l s = .ok (vs, s') →
      vs.length = l.length := by
  intro l
  induction l with
  | nil =>
    intro s vs s' h
    cases h
    rfl
  | cons x xs ih =>
    intro s vs s' h
    simp only [resolveSeq] at h
    cases hf : f x s with
    | error e =>
      rw [hf] at h
      cases h
    | ok w =>
      obtain ⟨v, t⟩ := w
      rw [hf] at h
      dsimp only at h
      cases hr : resolveSeq f xs t with
      | error e =>
        rw [hr] at h
        cases h
      | ok w' =>
        obtain ⟨ws, u⟩ := w'
        rw [hr] at h
        cases h
        show ws.length + 1 = xs.length + 1
        rw [ih t ws s' hr]

/-- Every successful `resolveSeq` run computes its `i`-th output by
running the element function on the `i`-th input (from some intermediate
state). -/
theorem resolveSeq_ok_get
    {f : JSONValue → EngineState → Except JSONQLError (JSONValue × EngineState)} :
    ∀ (l : List JSONValue) (s : EngineState) (vs : List JSONValue)
      (s' : EngineState), resolveSeq f l s = .ok (vs, s') →
      ∀ (i : Nat) (x : JSONValue), l.get? i = some x →
        ∃ y t₁ t₂, vs.get? i = some y ∧ f x t₁ = .ok (y, t₂) := by
  intro l
  induction l with
  | nil =>
    intro s vs s' h i x hx
    cases hx
  | cons z xs ih =>
    intro s vs s' h i x hx
    simp only [resolveSeq] at h
    cases hf : f z s with
    | error e =>
      rw [hf] at h
      cases h
    | ok w =>
      obtain ⟨v, t⟩ := w
      rw [hf] at h
      dsimp only at h
      cases hr : resolveSeq f xs t with
      | error e =>
        rw [hr] at h
        cases h
      | ok w' =>
        obtain ⟨ws, u⟩ := w'
        rw [hr] at h
        cases h
        cases i with
        | zero =>
          cases hx
          exact ⟨v, s, t, rfl, hf⟩
        | succ i =>
          exact ih t ws s' hr i x hx

/-- C9: expanding an array yields an array of the same length whose
`i`-th element is the expansion (at `depth + 1`, with the same Selection
Tree) of the `i`-th input element — order is preserved. -/
theorem c9_array_order_preserved (cfg : Config) (store : Store)
    (items : List JSONValue) (sel : SelTree) (depth : Nat) (s : EngineState)
    (v : JSONValue) (s' : EngineState)
    (h : resolveAllRefs cfg store (.arr items) sel depth s = .ok (v, s')) :
    ∃ vs, v = .arr vs ∧ vs.length = items.length ∧
      ∀ (i : Nat) (x : JSONValue), items.get? i = some x →
        ∃ y t₁ t₂, vs.get? i = some y ∧
          resolveAllRefs cfg store x sel (depth + 1) t₁ = .ok (y, t₂) := by
  unfold resolveAllRefs at h ⊢
  cases hfuel : cfg.maxDepth + 1 - depth with
  | zero =>
    rw [hfuel] at h
    cases h
  | succ fuel =>
    rw [hfuel] at h
    simp only [goResolve] at h
    cases hseq : resolveSeq
        (fun x s' => goResolve cfg store fuel (depth + 1) x sel s') items s with
    | error e =>
      rw [hseq] at h
      cases h
    | ok w =>
      obtain ⟨vs, u⟩ := w
      rw [hseq] at h
      dsimp only at h
      cases h
      refine ⟨vs, rfl, resolveSeq_ok_length items s vs s' hseq, ?_⟩
      intro i x hx
      obtain ⟨y, t₁, t₂, hy, hf⟩ := resolveSeq_ok_get items s vs s' hseq i x hx
      have hfe : cfg.maxDepth + 1 - (depth + 1) = fuel := by omega
      exact ⟨y, t₁, t₂, hy, by rw [hfe]; exact hf⟩

theorem c9_array_order_preserved_witness :
    resolveAllRefs ⟨10, true⟩ emptyStore (.arr [JSONValue.num 3]) (.node [])
        0 initState = .ok (.arr [JSONValue.num 3], initState) ∧
      (∃ vs, JSONValue.arr [JSONValue.num 3] = .arr vs ∧
        vs.length = [JSONValue.num 3].length ∧
        ∀ (i : Nat) (x : JSONValue), [JSONValue.num 3].get? i = some x →
          ∃ y t₁ t₂, vs.get? i = some y ∧
            resolveAllRefs ⟨10, true⟩ emptyStore x (.node []) 1 t₁ =
              .ok (y, t₂)) :=
  ⟨rfl,
    c9_array_order_preserved ⟨10, true⟩ emptyStore [JSONValue.num 3]
      (.node []) 0 initState (.arr [JSONValue.num 3]) initState rfl⟩

/- ---------- a canonical chain of references (for the depth bound) ---------- -/

/-- Path names `"c"`, `"cc"`, `"ccc"`, ... — distinct by length. -/
def cname (j : Nat) : String := String.mk (List.replicate j 'c')

/-- The document set holding a chain of `n` references: for `1 ≤ j < n`
the document at `cname j` is `{"$ref": cname (j+1)}`, and the document at
`cname n` is the scalar `7`. -/
def chainStore (n : Nat) : Store := fun p =>
  if 1 ≤ p.data.length ∧ p.data.length ≤ n ∧ p = cname p.data.length then
    some (if p.data.length < n then refObj (cname (p.data.length + 1))
      else .num 7)
  else none

theorem cname_len (j : Nat) : (cname j).data.length = j := by
  simp [cname]

theorem splitOnChar_not_mem {c : Char} :
    ∀ l : List Char, c ∉ l → splitOnChar c l = [l] := by
  intro l
  induction l with
  | nil => intro _; rfl
  | cons x xs ih =>
    intro h
    have hx : ¬ x = c := fun he => h (he ▸ List.mem_cons_self x xs)
    have hxs : c ∉ xs := fun hm => h (List.mem_cons_of_mem x hm)
    simp only [splitOnChar, if_neg hx, ih hxs]

theorem hash_not_mem_cname (j : Nat) : '#' ∉ (cname j).data := by
  intro hmem
  have : (cname j).data = List.replicate j 'c' := rfl
  rw [this] at hmem
  exact absurd (List.eq_of_mem_replicate hmem) (by decide)

theorem splitRef_cname (j : Nat) : splitRef (cname j) = (cname j, none) := by
  unfold splitRef
  rw [splitOnChar_not_mem _ (hash_not_mem_cname j)]
  simp only [List.map]

theorem startsWithSlash_cname (j : Nat) : startsWithSlash (cname j) = false := by
  cases j with
  | zero => rfl
  | succ m =>
    show startsWithSlash (String.mk (List.replicate (m + 1) 'c')) = false
    rw [List.replicate_succ]
    rfl

theorem normPath_cname (j : Nat) : normPath (cname j) = cname j := by
  simp [normPath, startsWithSlash_cname]

theorem chainStore_eq (n j : Nat) (h1 : 1 ≤ j) (h2 : j ≤ n) :
    chainStore n (cname j) =
      some (if j < n then refObj (cname (j + 1)) else .num 7) := by
  unfold chainStore
  simp only [cname_len]
  rw [if_pos ⟨h1, h2, trivial⟩]

theorem chain_pure (n j : Nat) (h1 : 1 ≤ j) (h2 : j ≤ n) :
    resolveRefPure (chainStore n) (cname j) =
      if j < n then refObj (cname (j + 1)) else .num 7 := by
  rw [resolveRefPure_noFrag (splitRef_cname j), normPath_cname,
    chainStore_eq n j h1 h2]
  rfl

/-- Expanding the chain from link `j` at depth `depth`: the expansion
succeeds with the final scalar exactly when the remaining chain fits
under the depth bound, and otherwise fails with the `resolveAllRefs`
depth error. -/
theorem chain_go (n : Nat) (cfg : Config) (sel : SelTree) :
    ∀ (fuel depth j : Nat) (s : EngineState), 1 ≤ j → j ≤ n →
      s.visited = [] → cacheCoherent (chainStore n) s.cache →
      fuel + depth = cfg.maxDepth + 1 →
      (depth + (n - j) + 1 ≤ cfg.maxDepth →
        ∃ s', goResolve cfg (chainStore n) fuel depth (refObj (cname j)) sel s =
          .ok (.num 7, s')) ∧
      (cfg.maxDepth < depth + (n - j) + 1 →
        goResolve cfg (chainStore n) fuel depth (refObj (cname j)) sel s =
          .error (.maxDepthExceeded cfg.maxDepth)) := by
  intro fuel
  induction fuel with
  | zero =>
    intro depth j s h1 h2 hv hc hfd
    constructor
    · intro hle
      exact absurd hle (by omega)
    · intro _
      rfl
  | succ fuel ih =>
    intro depth j s h1 h2 hv hc hfd
    have hdle : depth ≤ cfg.maxDepth := by omega
    have h2' : cname j ∉ s.visited := by
      rw [hv]
      exact List.not_mem_nil _
    obtain ⟨t, het, htv, htc⟩ := resolveRef_pure_ok (not_lt.mpr hdle) h2' hc
    have hpure := chain_pure n j h1 h2
    have href : refString [("$ref", JSONValue.str (cname j))] =
      some (cname j) := rfl
    by_cases hjn : j < n
    · rw [if_pos hjn] at hpure
      rw [hpure] at het
      have step : goResolve cfg (chainStore n) (fuel + 1) depth
          (refObj (cname j)) sel s =
          goResolve cfg (chainStore n) fuel (depth + 1)
            (refObj (cname (j + 1))) sel t := by
        simp only [refObj, goResolve, href, het]
      have ihj := ih (depth + 1) (j + 1) t (by omega) (by omega)
        (by rw [htv, hv]) htc (by omega)
      rw [step]
      constructor
      · intro hle
        exact ihj.1 (by omega)
      · intro hgt
        exact ihj.2 (by omega)
    · rw [if_neg hjn] at hpure
      rw [hpure] at het
      have step : goResolve cfg (chainStore n) (fuel + 1) depth
          (refObj (cname j)) sel s =
          goResolve cfg (chainStore n) fuel (depth + 1) (.num 7) sel t := by
        simp only [refObj, goResolve, href, het]
      rw [step]
      constructor
      · intro hle
        cases fuel with
        | zero => exact absurd hle (by omega)
        | succ f2 => exact ⟨t, by simp [goResolve]⟩
      · intro hgt
        have hf0 : fuel = 0 := by omega
        rw [hf0]
        rfl

/-- C2: for every configured depth bound and either cache setting, a
chain of `n` references expands successfully (to the chain's final
scalar) when `n ≤ maxDepth`, and fails with the `MaxDepthExceeded` error
when `n > maxDepth`; in particular a chain of exactly `maxDepth`
references succeeds. -/
theorem c2_depth_bound (maxD n : Nat) (flag : Bool) (sel : SelTree)
    (hn : 1 ≤ n) :
    (n ≤ maxD →
      ∃ s', resolveAllRefs ⟨maxD, flag⟩ (chainStore n) (refObj (cname 1))
        sel 0 initState = .ok (.num 7, s')) ∧
    (maxD < n →
      resolveAllRefs ⟨maxD, flag⟩ (chainStore n) (refObj (cname 1))
        sel 0 initState = .error (.maxDepthExceeded maxD)) := by
  unfold resolveAllRefs
  have hproj : (⟨maxD, flag⟩ : Config).maxDepth = maxD := rfl
  simp only [hproj]
  have hg := chain_go n ⟨maxD, flag⟩ sel (maxD + 1 - 0) 0 1 initState
    (by omega) hn rfl (cacheCoherent_nil _) (by simp only [hproj]; omega)
  simp only [hproj] at hg
  constructor
  · intro hle
    exact hg.1 (by omega)
  · intro hgt
    exact hg.2 (by omega)

theorem c2_depth_bound_witness :
    (1 : Nat) ≤ 3 ∧
      resolveAllRefs ⟨2, true⟩ (chainStore 3) (refObj (cname 1)) (.node [])
        0 initState = .error (.maxDepthExceeded 2) ∧
      (∃ s', resolveAllRefs ⟨3, true⟩ (chainStore 3) (refObj (cname 1))
        (.node []) 0 initState = .ok (.num 7, s')) :=
  ⟨by decide,
    (c2_depth_bound 2 3 true (.node []) (by decide)).2 (by decide),
    (c2_depth_bound 3 3 true (.node []) (by decide)).1 (by decide)⟩

/-- Expanding the self-referential document always runs the depth counter
out: each round trips through `resolveRef`, which hands back
`{"$ref": "p"}` (fresh or cached — the visited set was already restored
by the time the next round begins, so the cycle branch never fires), and
the fuel alone stops the recursion. -/
theorem selfStore_go (cfg : Config) (sel : SelTree) :
    ∀ (fuel depth : Nat) (s : EngineState), s.visited = [] →
      cacheCoherent selfStore s.cache → fuel + depth = cfg.maxDepth + 1 →
      goResolve cfg selfStore fuel depth (refObj "p") sel s =
        .error (.maxDepthExceeded cfg.maxDepth) := by
  intro fuel
  induction fuel with
  | zero =>
    intro depth s _ _ _
    rfl
  | succ fuel ih =>
    intro depth s hv hc hfd
    have hdle : depth ≤ cfg.maxDepth := by omega
    have h2 : "p" ∉ s.visited := by
      rw [hv]
      exact List.not_mem_nil _
    obtain ⟨t, het, htv, htc⟩ := resolveRef_pure_ok (not_lt.mpr hdle) h2 hc
    have hpure : resolveRefPure selfStore "p" = refObj "p" := rfl
    rw [hpure] at het
    have href : refString [("$ref", JSONValue.str "p")] = some "p" := rfl
    have step : goResolve cfg selfStore (fuel + 1) depth (refObj "p") sel s =
        goResolve cfg selfStore fuel (depth + 1) (refObj "p") sel t := by
      simp only [refObj, goResolve, href, het]
    rw [step]
    exact ih (depth + 1) t (by rw [htv, hv]) htc (by omega)

/-- C1 counterexample: on the default engine, resolving the document
`p = {"$ref": "p"}` terminates, but neither with a `CircularReference`
failure nor with a fallback value substituted: it fails with the
`MaxDepthExceeded` error after the depth counter runs out (the visited
set is restored before each re-resolution, so the cycle branch of
`resolveRef` never fires). -/
theorem c1_counterexample :
    resolveAllRefs ⟨10, true⟩ selfStore (refObj "p") (.node []) 0 initState =
        .error (.maxDepthExceeded 10) ∧
      ¬ (resolveAllRefs ⟨10, true⟩ selfStore (refObj "p") (.node []) 0
            initState = .error (.circularReference "p") ∨
          ∃ v s', resolveAllRefs ⟨10, true⟩ selfStore (refObj "p") (.node [])
            0 initState = .ok (v, s')) := by
  have h : resolveAllRefs ⟨10, true⟩ selfStore (refObj "p") (.node []) 0
      initState = .error (.maxDepthExceeded 10) := rfl
  refine ⟨h, ?_⟩
  rintro (hc | ⟨v, s', hv⟩)
  · rw [h] at hc
    cases hc
  · rw [h] at hv
    cases hv

/-- C1 amended: resolving a self-referential document does terminate
within one call, but the outcome is the `MaxDepthExceeded` failure of the
depth bound — not a `CircularReference` failure and not a substituted
fallback value — for every configuration and Selection Tree. -/
theorem c1_self_reference_max_depth (cfg : Config) (sel : SelTree) :
    resolveAllRefs cfg selfStore (refObj "p") sel 0 initState =
      .error (.maxDepthExceeded cfg.maxDepth) := by
  unfold resolveAllRefs
  exact selfStore_go cfg sel (cfg.maxDepth + 1 - 0) 0 initState rfl
    (cacheCoherent_nil _) (by omega)

/-- C7: over an unchanged document set, the result of `query` does not
depend on the Resolution Cache: with any coherent cache (in particular
one populated by earlier queries against the same store), the
caller-visible result equals the result after `clearCache()`, the result
on an engine with caching disabled, and the result on a fresh engine —
the cache can only change Document Store call counts. -/
theorem c7_cache_transparency (cfg : Config) (store : Store) (entry : String)
    (sel : SelTree) (s : EngineState) (hc : cacheCoherent store s.cache) :
    (queryRun cfg store entry sel s).map Prod.fst =
        (queryRun cfg store entry sel (clearCache s)).map Prod.fst ∧
      (queryRun cfg store entry sel s).map Prod.fst =
        (queryRun ⟨cfg.maxDepth, false⟩ store entry sel initState).map Prod.fst ∧
      (queryRun cfg store entry sel s).map Prod.fst =
        (queryRun cfg store entry sel initState).map Prod.fst :=
  ⟨queryRun_result_rel rfl hc (cacheCoherent_nil store),
    queryRun_result_rel rfl hc (cacheCoherent_nil store),
    queryRun_result_rel rfl hc (cacheCoherent_nil store)⟩

theorem c7_cache_transparency_witness :
    cacheCoherent selfStore initState.cache ∧
      (queryRun ⟨10, true⟩ selfStore "p" (.node [("x", .node [])])
          initState).map Prod.fst =
        (queryRun ⟨10, true⟩ selfStore "p" (.node [("x", .node [])])
          (clearCache initState)).map Prod.fst :=
  ⟨cacheCoherent_nil selfStore,
    (c7_cache_transparency ⟨10, true⟩ selfStore "p" (.node [("x", .node [])])
      initState (cacheCoherent_nil selfStore)).1⟩
